import Mathlib

/-!
Verification of the typed persistence layer in `src/db/mod.rs` (feathermail).

The layer sits on an ordered byte-keyed store ("tree", sled). We model a
tree as an association list of (byte key, byte value) pairs kept in
ascending lexicographic byte order, which is sled's iteration order.
Engine-level failures (`sled::Error`) are injected through an explicit
`fault` argument on each operation that talks to the engine, mirroring the
`?` propagation in the Rust source. The bincode codec for a value type `T`
is modelled as a pair of encode/decode functions that may fail, and UTF-8
key conversion (`String::from_utf8` / `str::as_bytes`) is modelled by an
executable UTF-8 encoder/decoder over byte lists.

Mutating operations return the post-state tree next to the result, since
the Rust functions mutate the shared tree through the engine.
-/

set_option autoImplicit false

deriving instance DecidableEq for Except

namespace Feathermail

/-- Byte strings: keys and values of the store. -/
abbrev Bytes := List Nat

/-- A tree: entries in ascending lexicographic key order (sled's order). -/
abbrev Tree := List (Bytes × Bytes)

/-- Lexicographic byte-order on keys, as sled compares byte slices. -/
def keyLt : Bytes → Bytes → Bool
  | [], [] => false
  | [], _ :: _ => true
  | _ :: _, [] => false
  | a :: as, b :: bs => if a < b then true else if b < a then false else keyLt as bs

/-- The tree invariant: entries strictly ascending by key. -/
def isSorted : Tree → Bool
  | [] => true
  | [_] => true
  | a :: b :: rest => keyLt a.1 b.1 && isSorted (b :: rest)

/-- Engine lookup (`Tree::get`). -/
def treeLookup : Tree → Bytes → Option Bytes
  | [], _ => none
  | (k', v') :: rest, k => if k = k' then some v' else treeLookup rest k

/-- Engine insert (`Tree::insert`): order-preserving insertion returning
the previous value, if any. -/
def treeInsert : Tree → Bytes → Bytes → Option Bytes × Tree
  | [], k, v => (none, [(k, v)])
  | (k', v') :: rest, k, v =>
    if keyLt k k' then (none, (k, v) :: (k', v') :: rest)
    else if k = k' then (some v', (k, v) :: rest)
    else
      let r := treeInsert rest k v
      (r.1, (k', v') :: r.2)

/-- Engine remove (`Tree::remove`): returns the previous value, if any. -/
def treeRemove : Tree → Bytes → Option Bytes × Tree
  | [], _ => (none, [])
  | (k', v') :: rest, k =>
    if k = k' then (some v', rest)
    else
      let r := treeRemove rest k
      (r.1, (k', v') :: r.2)

/-! UTF-8 encoding and decoding, modelling `str::as_bytes` and
`String::from_utf8` (strict: continuation bytes checked, overlong forms,
surrogates and out-of-range code points rejected). -/

/-- UTF-8 encoding of a single Unicode scalar value. -/
def utf8EncodeNat (n : Nat) : Bytes :=
  if n < 128 then [n]
  else if n < 2048 then [192 + n / 64, 128 + n % 64]
  else if n < 65536 then [224 + n / 4096, 128 + n / 64 % 64, 128 + n % 64]
  else [240 + n / 262144, 128 + n / 4096 % 64, 128 + n / 64 % 64, 128 + n % 64]

/-- `str::as_bytes`: UTF-8 encoding of a string. -/
def utf8Encode (s : String) : Bytes :=
  s.data.flatMap fun c => utf8EncodeNat c.toNat

/-- Is the byte a UTF-8 continuation byte (10xxxxxx)? -/
def isCont (b : Nat) : Prop := 128 ≤ b ∧ b < 192

instance (b : Nat) : Decidable (isCont b) := inferInstanceAs (Decidable (_ ∧ _))

/-- Decode the tail of a 2-byte UTF-8 sequence with lead byte `b`. -/
def utf8Decode2 (b : Nat) : Bytes → Option (Nat × Bytes)
  | b1 :: rest =>
    if isCont b1 then
      let n := (b - 192) * 64 + (b1 - 128)
      if 128 ≤ n then some (n, rest) else none
    else none
  | [] => none

/-- Decode the tail of a 3-byte UTF-8 sequence with lead byte `b`. -/
def utf8Decode3 (b : Nat) : Bytes → Option (Nat × Bytes)
  | b1 :: b2 :: rest =>
    if isCont b1 ∧ isCont b2 then
      let n := (b - 224) * 4096 + (b1 - 128) * 64 + (b2 - 128)
      if 2048 ≤ n ∧ ¬(55296 ≤ n ∧ n < 57344) then some (n, rest) else none
    else none
  | _ => none

/-- Decode the tail of a 4-byte UTF-8 sequence with lead byte `b`. -/
def utf8Decode4 (b : Nat) : Bytes → Option (Nat × Bytes)
  | b1 :: b2 :: b3 :: rest =>
    if isCont b1 ∧ isCont b2 ∧ isCont b3 then
      let n := (b - 240) * 262144 + (b1 - 128) * 4096 + (b2 - 128) * 64 + (b3 - 128)
      if 65536 ≤ n ∧ n < 1114112 then some (n, rest) else none
    else none
  | _ => none

/-- Decode one Unicode scalar value from the front of a byte list. -/
def utf8DecodeChar : Bytes → Option (Nat × Bytes)
  | [] => none
  | b :: rest =>
    if b < 128 then some (b, rest)
    else if b < 192 then none
    else if b < 224 then utf8Decode2 b rest
    else if b < 240 then utf8Decode3 b rest
    else if b < 248 then utf8Decode4 b rest
    else none

/-- Fuelled decoding loop (each step consumes at least one byte, so the
input length is enough fuel). -/
def utf8DecodeAux : Nat → Bytes → Option (List Char)
  | _, [] => some []
  | 0, _ :: _ => none
  | fuel + 1, b :: rest =>
    match utf8DecodeChar (b :: rest) with
    | none => none
    | some (n, rest') =>
      match utf8DecodeAux fuel rest' with
      | none => none
      | some cs => some (Char.ofNat n :: cs)

/-- `String::from_utf8`: decode a byte list to a string, or fail. -/
def utf8Decode (l : Bytes) : Option String :=
  (utf8DecodeAux l.length l).map fun cs => { data := cs }

/-! The error taxonomy of `db/mod.rs`. -/

/-- An opaque engine-internal error (`sled::Error`). -/
structure SledErr where
  code : Nat
  deriving DecidableEq

/-- `DatabaseError` from `db/mod.rs`. -/
inductive DatabaseError where
  | NotFound
  | Get
  | Set
  | Communicate
  | Deserialize
  | Serialize
  | NoDelete
  | SledError (e : SledErr)
  deriving DecidableEq

/-- The `Box<Error>` error type of `set`: either the boxed bincode
serialization error propagated by `?`, or a boxed `DatabaseError`. -/
inductive BoxedError where
  | bincodeErr
  | database (e : DatabaseError)
  deriving DecidableEq

/-- The bincode codec for a value type `T`: `bincode::serialize` and
`bincode::deserialize`, each of which may fail. -/
structure Codec (T : Type) where
  ser : T → Option Bytes
  de : Bytes → Option T

/-! The operations of `db/mod.rs`, one Lean definition per Rust function. -/

/-- `get_from_tree`: `db.get(key)?.ok_or(DatabaseError::NotFound)`. -/
def get_from_tree (db : Tree) (key : String) (fault : Option SledErr) :
    Except DatabaseError Bytes :=
  match fault with
  | some e => .error (.SledError e)
  | none =>
    match treeLookup db (utf8Encode key) with
    | some v => .ok v
    | none => .error .NotFound

/-- `get_all_from_tree`: collect `db.iter()`, mapping any engine error of
an item to `DatabaseError::Get`. -/
def get_all_from_tree (db : Tree) (fault : Option SledErr) :
    Except DatabaseError (List (Bytes × Bytes)) :=
  match fault with
  | some _ => .error .Get
  | none => .ok db

/-- `get_last_from_tree`: `db.last()?` then `ok_or(NotFound)`. -/
def get_last_from_tree (db : Tree) (fault : Option SledErr) :
    Except DatabaseError (Bytes × Bytes) :=
  match fault with
  | some e => .error (.SledError e)
  | none =>
    match db.getLast? with
    | some kv => .ok kv
    | none => .error .NotFound

/-- `get_last`: last raw entry, key decoded as UTF-8, value deserialized;
either conversion failure becomes `Deserialize`. -/
def get_last {T : Type} (c : Codec T) (tree : Tree) (fault : Option SledErr) :
    Except DatabaseError (String × T) :=
  match get_last_from_tree tree fault with
  | .error e => .error e
  | .ok binary_data =>
    match utf8Decode binary_data.1 with
    | none => .error .Deserialize
    | some key =>
      match c.de binary_data.2 with
      | none => .error .Deserialize
      | some value => .ok (key, value)

/-- The `for` loop of `get_all`: convert each key to UTF-8 and decode each
value, aborting with `Deserialize` on the first failure. -/
def get_all_loop {T : Type} (c : Codec T) :
    List (Bytes × Bytes) → Except DatabaseError (List (String × T))
  | [] => .ok []
  | (binary_key, binary_value) :: rest =>
    match utf8Decode binary_key with
    | none => .error .Deserialize
    | some key =>
      match c.de binary_value with
      | none => .error .Deserialize
      | some value =>
        match get_all_loop c rest with
        | .error e => .error e
        | .ok all => .ok ((key, value) :: all)

/-- `get_all`: all raw pairs, each key decoded as UTF-8 and each value
deserialized, all-or-nothing. -/
def get_all {T : Type} (c : Codec T) (tree : Tree) (fault : Option SledErr) :
    Except DatabaseError (List (String × T)) :=
  match get_all_from_tree tree fault with
  | .error e => .error e
  | .ok binary_data => get_all_loop c binary_data

/-- `get`: raw lookup then deserialize, decode failure becomes
`Deserialize`. -/
def get {T : Type} (c : Codec T) (tree : Tree) (key : String) (fault : Option SledErr) :
    Except DatabaseError T :=
  match get_from_tree tree key fault with
  | .error e => .error e
  | .ok binary_data =>
    match c.de binary_data with
    | none => .error .Deserialize
    | some v => .ok v

/-- `set_to_tree`: `db.insert(key, bin)`, mapping an engine error to
`DatabaseError::Set`. -/
def set_to_tree (db : Tree) (key : String) (bin : Bytes) (fault : Option SledErr) :
    Except DatabaseError Unit × Tree :=
  match fault with
  | some _ => (.error .Set, db)
  | none => (.ok (), (treeInsert db (utf8Encode key) bin).2)

/-- `set`: serialize first (failure propagates as the boxed bincode error
through `?`), then `set_to_tree`, whose failure is mapped to
`DatabaseError::Communicate` and boxed. -/
def set {T : Type} (c : Codec T) (tree : Tree) (key : String) (data : T)
    (fault : Option SledErr) : Except BoxedError Unit × Tree :=
  match c.ser data with
  | none => (.error .bincodeErr, tree)
  | some binary_data =>
    match set_to_tree tree key binary_data fault with
    | (.error _, t) => (.error (.database .Communicate), t)
    | (.ok _, t) => (.ok (), t)

/-- `delete`: `tree.remove(key)?`, then `Some` means success and `None`
means `NotFound`. -/
def delete (tree : Tree) (key : String) (fault : Option SledErr) :
    Except DatabaseError Unit × Tree :=
  match fault with
  | some e => (.error (.SledError e), tree)
  | none =>
    let result := treeRemove tree (utf8Encode key)
    match result.1 with
    | some _ => (.ok (), result.2)
    | none => (.error .NotFound, result.2)

/-- A concrete codec for `Nat`, used to instantiate the generic theorems:
encodes `n` as the singleton byte list `[n]`. -/
def natCodec : Codec Nat where
  ser n := some [n]
  de l :=
    match l with
    | [n] => some n
    | _ => none

/-- A codec whose encoder always fails, exercising the serialization
failure path of `set`. -/
def badCodec : Codec Nat where
  ser _ := none
  de _ := none

/-! Helper lemmas on the byte order and the tree operations. -/

theorem keyLt_irrefl (a : Bytes) : keyLt a a = false := by
  induction a with
  | nil => rfl
  | cons x xs ih => simp [keyLt, ih]

theorem keyLt_ne {a b : Bytes} (h : keyLt a b = true) : a ≠ b := by
  intro he
  rw [he, keyLt_irrefl] at h
  cases h

theorem keyLt_asymm {a b : Bytes} (h : keyLt a b = true) : keyLt b a = false := by
  induction a generalizing b with
  | nil =>
    cases b with
    | nil => simp [keyLt] at h
    | cons y ys => simp [keyLt]
  | cons x xs ih =>
    cases b with
    | nil => simp [keyLt] at h
    | cons y ys =>
      simp only [keyLt] at h ⊢
      split_ifs at h ⊢ <;> first | rfl | omega | exact ih h

theorem keyLt_trans {a b c : Bytes} (hab : keyLt a b = true) (hbc : keyLt b c = true) :
    keyLt a c = true := by
  induction a generalizing b c with
  | nil =>
    cases b with
    | nil => cases hab
    | cons y ys =>
      cases c with
      | nil => cases hbc
      | cons z zs => simp [keyLt]
  | cons x xs ih =>
    cases b with
    | nil => simp [keyLt] at hab
    | cons y ys =>
      cases c with
      | nil => simp [keyLt] at hbc
      | cons z zs =>
        simp only [keyLt] at hab hbc ⊢
        split_ifs at hab hbc ⊢ with h1 h2 h3 h4 h5 h6 <;>
          first | rfl | omega | cases hab | cases hbc | exact ih hab hbc

theorem treeLookup_insert (t : Tree) (k v : Bytes) :
    treeLookup (treeInsert t k v).2 k = some v := by
  induction t with
  | nil => simp [treeInsert, treeLookup]
  | cons e rest ih =>
    obtain ⟨k', v'⟩ := e
    simp only [treeInsert]
    split_ifs with h1 h2
    · simp [treeLookup]
    · simp [treeLookup]
    · simpa [treeLookup, h2] using ih

theorem treeRemove_absent (t : Tree) (k : Bytes) (h : treeLookup t k = none) :
    treeRemove t k = (none, t) := by
  induction t with
  | nil => rfl
  | cons e rest ih =>
    obtain ⟨k', v'⟩ := e
    simp only [treeLookup] at h
    by_cases h1 : k = k'
    · simp [h1] at h
    · rw [if_neg h1] at h
      simp [treeRemove, h1, ih h]

theorem isSorted_tail {a : Bytes × Bytes} {rest : Tree}
    (h : isSorted (a :: rest) = true) : isSorted rest = true := by
  cases rest with
  | nil => rfl
  | cons b rest' =>
    simp only [isSorted, Bool.and_eq_true] at h
    exact h.2

theorem isSorted_head_lt {a : Bytes × Bytes} {rest : Tree}
    (h : isSorted (a :: rest) = true) :
    ∀ e ∈ rest, keyLt a.1 e.1 = true := by
  induction rest generalizing a with
  | nil => intro e he; cases he
  | cons b rest' ih =>
    intro e he
    simp only [isSorted, Bool.and_eq_true] at h
    rcases List.mem_cons.mp he with rfl | he'
    · exact h.1
    · exact keyLt_trans h.1 (ih h.2 e he')

theorem treeLookup_none_of_gt {t : Tree} {k : Bytes}
    (h : ∀ e ∈ t, keyLt k e.1 = true) : treeLookup t k = none := by
  induction t with
  | nil => rfl
  | cons e rest ih =>
    obtain ⟨k', v'⟩ := e
    have hne : k ≠ k' := keyLt_ne (h (k', v') (List.mem_cons_self _ _))
    simp only [treeLookup, if_neg hne]
    exact ih fun e he => h e (List.mem_cons_of_mem _ he)

theorem treeLookup_remove_self {t : Tree} (k : Bytes) (h : isSorted t = true) :
    treeLookup (treeRemove t k).2 k = none := by
  induction t with
  | nil => rfl
  | cons e rest ih =>
    obtain ⟨k', v'⟩ := e
    simp only [treeRemove]
    split_ifs with h1
    · subst h1
      exact treeLookup_none_of_gt (isSorted_head_lt h)
    · simpa [treeLookup, h1] using ih (isSorted_tail h)

theorem getLast_greatest {t : Tree} {e : Bytes × Bytes}
    (hs : isSorted t = true) (hl : t.getLast? = some e) :
    e ∈ t ∧ ∀ e' ∈ t, e' = e ∨ keyLt e'.1 e.1 = true := by
  induction t with
  | nil => cases hl
  | cons a rest ih =>
    cases rest with
    | nil =>
      simp only [List.getLast?_singleton, Option.some.injEq] at hl
      subst hl
      refine ⟨List.mem_singleton_self _, ?_⟩
      intro e' he'
      rcases List.mem_singleton.mp he' with rfl
      exact Or.inl rfl
    | cons b rest' =>
      rw [List.getLast?_cons_cons] at hl
      obtain ⟨hmem, hmax⟩ := ih (isSorted_tail hs) hl
      refine ⟨List.mem_cons_of_mem _ hmem, ?_⟩
      intro e' he'
      rcases List.mem_cons.mp he' with rfl | he''
      · exact Or.inr (isSorted_head_lt hs e hmem)
      · exact hmax e' he''

/-! Round-trip lemmas for the UTF-8 codec. -/

theorem utf8Decode2_spec {b n : Nat} {l r : Bytes}
    (h : utf8Decode2 b l = some (n, r)) (hb1 : 192 ≤ b) (hb2 : b < 224) :
    n.isValidChar ∧ b :: l = utf8EncodeNat n ++ r := by
  cases l with
  | nil => cases h
  | cons b1 rest =>
    simp only [utf8Decode2, isCont] at h
    split_ifs at h with hc hn
    · rw [Option.some.injEq, Prod.mk.injEq] at h
      obtain ⟨rfl, rfl⟩ := h
      constructor
      · exact Or.inl (by omega)
      · rw [utf8EncodeNat, if_neg (by omega), if_pos (by omega)]
        simp only [List.cons_append, List.nil_append, List.cons.injEq, and_true]
        omega

theorem utf8Decode3_spec {b n : Nat} {l r : Bytes}
    (h : utf8Decode3 b l = some (n, r)) (hb1 : 224 ≤ b) (hb2 : b < 240) :
    n.isValidChar ∧ b :: l = utf8EncodeNat n ++ r := by
  match l with
  | [] => cases h
  | [_] => cases h
  | b1 :: b2 :: rest =>
    simp only [utf8Decode3, isCont] at h
    split_ifs at h with hc hn
    · rw [Option.some.injEq, Prod.mk.injEq] at h
      obtain ⟨rfl, rfl⟩ := h
      obtain ⟨⟨hc1, hc2⟩, hc3, hc4⟩ := hc
      constructor
      · rcases Nat.lt_or_ge ((b - 224) * 4096 + (b1 - 128) * 64 + (b2 - 128)) 55296 with
          hlt | hge
        · exact Or.inl hlt
        · exact Or.inr (by omega)
      · rw [utf8EncodeNat, if_neg (by omega), if_neg (by omega), if_pos (by omega)]
        simp only [List.cons_append, List.nil_append, List.cons.injEq, and_true]
        omega

theorem utf8Decode4_spec {b n : Nat} {l r : Bytes}
    (h : utf8Decode4 b l = some (n, r)) (hb1 : 240 ≤ b) (hb2 : b < 248) :
    n.isValidChar ∧ b :: l = utf8EncodeNat n ++ r := by
  match l with
  | [] => cases h
  | [_] => cases h
  | [_, _] => cases h
  | b1 :: b2 :: b3 :: rest =>
    simp only [utf8Decode4, isCont] at h
    split_ifs at h with hc hn
    · rw [Option.some.injEq, Prod.mk.injEq] at h
      obtain ⟨rfl, rfl⟩ := h
      obtain ⟨⟨hc1, hc2⟩, ⟨hc3, hc4⟩, hc5, hc6⟩ := hc
      constructor
      · exact Or.inr (by omega)
      · rw [utf8EncodeNat, if_neg (by omega), if_neg (by omega), if_neg (by omega)]
        simp only [List.cons_append, List.nil_append, List.cons.injEq, and_true]
        omega

theorem utf8DecodeChar_spec {l : Bytes} {n : Nat} {r : Bytes}
    (h : utf8DecodeChar l = some (n, r)) :
    n.isValidChar ∧ l = utf8EncodeNat n ++ r := by
  cases l with
  | nil => cases h
  | cons b rest =>
    simp only [utf8DecodeChar] at h
    split_ifs at h with h1 h2 h3 h4 h5
    · rw [Option.some.injEq, Prod.mk.injEq] at h
      obtain ⟨rfl, rfl⟩ := h
      exact ⟨Or.inl (by omega), by rw [utf8EncodeNat, if_pos h1]; simp⟩
    · exact utf8Decode2_spec h (by omega) (by omega)
    · exact utf8Decode3_spec h (by omega) (by omega)
    · exact utf8Decode4_spec h (by omega) (by omega)

theorem toNat_ofNat_of_valid {n : Nat} (h : n.isValidChar) : (Char.ofNat n).toNat = n := by
  simp [Char.ofNat, dif_pos h, Char.ofNatAux, Char.toNat, UInt32.toNat]

theorem utf8DecodeChar_encode (n : Nat) (r : Bytes) (h : n.isValidChar) :
    utf8DecodeChar (utf8EncodeNat n ++ r) = some (n, r) := by
  have hv : n < 55296 ∨ (57343 < n ∧ n < 1114112) := h
  by_cases h1 : n < 128
  · rw [utf8EncodeNat, if_pos h1]
    simp only [List.cons_append, List.nil_append, utf8DecodeChar, if_pos h1]
  · by_cases h2 : n < 2048
    · rw [utf8EncodeNat, if_neg h1, if_pos h2]
      simp only [List.cons_append, List.nil_append, utf8DecodeChar]
      rw [if_neg (by omega), if_neg (by omega), if_pos (by omega)]
      simp only [utf8Decode2, isCont]
      split_ifs with h3 h4
      · simp only [Option.some.injEq, Prod.mk.injEq, and_true]
        omega
      · omega
      · omega
    · by_cases h3 : n < 65536
      · rw [utf8EncodeNat, if_neg h1, if_neg h2, if_pos h3]
        simp only [List.cons_append, List.nil_append, utf8DecodeChar]
        rw [if_neg (by omega), if_neg (by omega), if_neg (by omega), if_pos (by omega)]
        simp only [utf8Decode3, isCont]
        split_ifs with h4 h5
        · simp only [Option.some.injEq, Prod.mk.injEq, and_true]
          omega
        · omega
        · omega
      · rw [utf8EncodeNat, if_neg h1, if_neg h2, if_neg h3]
        simp only [List.cons_append, List.nil_append, utf8DecodeChar]
        rw [if_neg (by omega), if_neg (by omega), if_neg (by omega), if_neg (by omega),
          if_pos (by omega)]
        simp only [utf8Decode4, isCont]
        split_ifs with h4 h5
        · simp only [Option.some.injEq, Prod.mk.injEq, and_true]
          omega
        · omega
        · omega

theorem utf8EncodeNat_ne_nil (n : Nat) : utf8EncodeNat n ≠ [] := by
  rw [utf8EncodeNat]
  split_ifs <;> simp

theorem utf8DecodeAux_step (f : Nat) (l : Bytes) (n : Nat) (rest : Bytes)
    (hd : utf8DecodeChar l = some (n, rest)) (hl : l ≠ []) :
    utf8DecodeAux (f + 1) l =
      match utf8DecodeAux f rest with
      | none => none
      | some cs => some (Char.ofNat n :: cs) := by
  cases l with
  | nil => exact absurd rfl hl
  | cons b l' => simp [utf8DecodeAux, hd]

theorem utf8DecodeAux_encode (cs : List Char) (fuel : Nat)
    (hf : (cs.flatMap fun c => utf8EncodeNat c.toNat).length ≤ fuel) :
    utf8DecodeAux fuel (cs.flatMap fun c => utf8EncodeNat c.toNat) = some cs := by
  induction cs generalizing fuel with
  | nil => cases fuel <;> rfl
  | cons c cs' ih =>
    rw [List.flatMap_cons] at hf ⊢
    have hne := utf8EncodeNat_ne_nil c.toNat
    have hp : 0 < (utf8EncodeNat c.toNat).length := List.length_pos.mpr hne
    rw [List.length_append] at hf
    cases fuel with
    | zero => omega
    | succ f =>
      have hd := utf8DecodeChar_encode c.toNat (cs'.flatMap fun x => utf8EncodeNat x.toNat) c.valid
      rw [utf8DecodeAux_step f _ _ _ hd
        (fun hc => hne (List.append_eq_nil.mp hc).1)]
      rw [ih f (by omega), Char.ofNat_toNat]

theorem utf8Decode_encode (s : String) : utf8Decode (utf8Encode s) = some s := by
  rw [utf8Decode, utf8Encode, utf8DecodeAux_encode s.data _ le_rfl]
  rfl

theorem utf8DecodeAux_spec (fuel : Nat) (l : Bytes) (cs : List Char)
    (h : utf8DecodeAux fuel l = some cs) :
    l = cs.flatMap fun c => utf8EncodeNat c.toNat := by
  induction fuel generalizing l cs with
  | zero =>
    cases l with
    | nil =>
      obtain rfl : ([] : List Char) = cs := by cases h; rfl
      rfl
    | cons b rest => cases h
  | succ f ih =>
    cases l with
    | nil =>
      obtain rfl : ([] : List Char) = cs := by cases h; rfl
      rfl
    | cons b rest =>
      cases hx : utf8DecodeChar (b :: rest) with
      | none => simp [utf8DecodeAux, hx] at h
      | some p =>
        obtain ⟨n, rest'⟩ := p
        cases hy : utf8DecodeAux f rest' with
        | none => simp [utf8DecodeAux, hx, hy] at h
        | some cs0 =>
          simp only [utf8DecodeAux, hx, hy, Option.some.injEq] at h
          subst h
          obtain ⟨hvalid, henc⟩ := utf8DecodeChar_spec hx
          rw [List.flatMap_cons, toNat_ofNat_of_valid hvalid, ← ih rest' cs0 hy]
          exact henc

theorem utf8Decode_spec {l : Bytes} {s : String} (h : utf8Decode l = some s) :
    utf8Encode s = l := by
  rw [utf8Decode] at h
  cases hx : utf8DecodeAux l.length l with
  | none => rw [hx] at h; cases h
  | some cs =>
    rw [hx] at h
    obtain rfl : ({ data := cs } : String) = s := by cases h; rfl
    rw [utf8Encode]
    exact (utf8DecodeAux_spec _ _ _ hx).symm

/-! Lemmas about the `get_all` conversion loop. -/

theorem get_all_loop_ok {T : Type} (c : Codec T) (l : List (Bytes × Bytes))
    (out : List (String × T)) (h : get_all_loop c l = .ok out) :
    List.Forall₂ (fun e p => utf8Decode e.1 = some p.1 ∧ c.de e.2 = some p.2) l out := by
  induction l generalizing out with
  | nil =>
    obtain rfl : ([] : List (String × T)) = out := by cases h; rfl
    exact List.Forall₂.nil
  | cons e rest ih =>
    obtain ⟨bk, bv⟩ := e
    cases hk : utf8Decode bk with
    | none => simp [get_all_loop, hk] at h
    | some key =>
      cases hv : c.de bv with
      | none => simp [get_all_loop, hk, hv] at h
      | some value =>
        cases hr : get_all_loop c rest with
        | error e0 => simp [get_all_loop, hk, hv, hr] at h
        | ok all =>
          simp only [get_all_loop, hk, hv, hr, Except.ok.injEq] at h
          subst h
          exact List.Forall₂.cons ⟨hk, hv⟩ (ih all hr)

theorem get_all_loop_error {T : Type} (c : Codec T) (l : List (Bytes × Bytes))
    (e : DatabaseError) (h : get_all_loop c l = .error e) : e = .Deserialize := by
  induction l generalizing e with
  | nil => cases h
  | cons p rest ih =>
    obtain ⟨bk, bv⟩ := p
    cases hk : utf8Decode bk with
    | none =>
      simp only [get_all_loop, hk, Except.error.injEq] at h
      exact h.symm
    | some key =>
      cases hv : c.de bv with
      | none =>
        simp only [get_all_loop, hk, hv, Except.error.injEq] at h
        exact h.symm
      | some value =>
        cases hr : get_all_loop c rest with
        | error e0 =>
          simp only [get_all_loop, hk, hv, hr, Except.error.injEq] at h
          exact h ▸ ih e0 hr
        | ok all => simp [get_all_loop, hk, hv, hr] at h

theorem get_all_loop_bad {T : Type} (c : Codec T) (l : List (Bytes × Bytes))
    (hbad : ∃ e ∈ l, utf8Decode e.1 = none ∨ c.de e.2 = none) :
    get_all_loop c l = .error .Deserialize := by
  induction l with
  | nil => obtain ⟨e, he, -⟩ := hbad; cases he
  | cons p rest ih =>
    obtain ⟨bk, bv⟩ := p
    cases hk : utf8Decode bk with
    | none => simp [get_all_loop, hk]
    | some key =>
      cases hv : c.de bv with
      | none => simp [get_all_loop, hk, hv]
      | some value =>
        obtain ⟨e, he, hd⟩ := hbad
        rcases List.mem_cons.mp he with rfl | he'
        · rcases hd with hd | hd
          · rw [hk] at hd; cases hd
          · rw [hv] at hd; cases hd
        · simp only [get_all_loop, hk, hv, ih ⟨e, he', hd⟩]

theorem chain_of_forall2 {T : Type} {c : Codec T} {l : List (Bytes × Bytes)}
    {out : List (String × T)}
    (hf : List.Forall₂ (fun e p => utf8Decode e.1 = some p.1 ∧ c.de e.2 = some p.2) l out)
    (hs : isSorted l = true) :
    List.Chain' (fun p q => keyLt (utf8Encode p.1) (utf8Encode q.1) = true) out := by
  induction l generalizing out with
  | nil => cases hf; exact List.chain'_nil
  | cons e rest ih =>
    cases hf with
    | cons hR hf' =>
      rename_i p out'
      cases rest with
      | nil =>
        cases hf'
        exact List.chain'_singleton p
      | cons e2 rest2 =>
        cases hf' with
        | cons hR2 hf'' =>
          rename_i q out''
          have hlt : keyLt e.1 e2.1 = true := by
            simp only [isSorted, Bool.and_eq_true] at hs
            exact hs.1
          refine List.chain'_cons.mpr ⟨?_, ih (List.Forall₂.cons hR2 hf'') (isSorted_tail hs)⟩
          rw [utf8Decode_spec hR.1, utf8Decode_spec hR2.1]
          exact hlt

theorem set_ok {T : Type} (c : Codec T) (tree : Tree) (k : String) (v : T) (bin : Bytes)
    (hser : c.ser v = some bin) :
    set c tree k v none = (.ok (), (treeInsert tree (utf8Encode k) bin).2) := by
  simp [set, set_to_tree, hser]

theorem treeInsert_nil (k v : Bytes) : (treeInsert [] k v).2 = [(k, v)] := rfl

theorem treeInsert_after (k1 v1 k2 v2 : Bytes) (hasym : keyLt k2 k1 = false)
    (hne : k2 ≠ k1) : (treeInsert [(k1, v1)] k2 v2).2 = [(k1, v1), (k2, v2)] := by
  simp [treeInsert, hasym, hne]

theorem treeInsert_before (k1 v1 k2 v2 : Bytes) (hlt : keyLt k1 k2 = true) :
    (treeInsert [(k2, v2)] k1 v1).2 = [(k1, v1), (k2, v2)] := by
  simp [treeInsert, hlt]

/-! The claims. -/

/-- C1: for every tree, UTF-8 string key `k` and value `v` of a type `T`
with a deterministic binary codec (decode inverts encode), if
`set(tree, k, v)` succeeds then a subsequent `get::<T>(tree, k)` succeeds
and returns a value equal to `v`. -/
theorem set_get_roundtrip {T : Type} (c : Codec T) (tree t' : Tree) (k : String) (v : T)
    (f : Option SledErr)
    (hrt : ∀ (w : T) (b : Bytes), c.ser w = some b → c.de b = some w)
    (hset : set c tree k v f = (.ok (), t')) :
    get c t' k none = .ok v := by
  cases hs : c.ser v with
  | none => simp [set, hs] at hset
  | some bin =>
    cases f with
    | some e => simp [set, hs, set_to_tree] at hset
    | none =>
      simp only [set, hs, set_to_tree, Prod.mk.injEq] at hset
      obtain ⟨-, rfl⟩ := hset
      simp [get, get_from_tree, treeLookup_insert, hrt v bin hs]

/-- Witness for C1: the round trip evaluated at the `Nat` codec, key "a"
and value 5 on the empty tree. -/
theorem set_get_roundtrip_witness : get natCodec [([97], [5])] "a" none = .ok 5 :=
  set_get_roundtrip natCodec [] [([97], [5])] "a" 5 none
    (fun w b hb => by injection hb with h; subst h; rfl)
    (by decide)

/-- C2 counterexample: with a codec whose encoder fails, `set` returns the
boxed bincode error, which is not the `Serialize` kind of
`DatabaseError` — the claim that `set` fails with `Serialize` is false. -/
theorem set_serialize_kind_cex :
    set badCodec ([] : Tree) "k" (0 : Nat) none = (.error .bincodeErr, []) ∧
      Except.error BoxedError.bincodeErr ≠
        (Except.error (BoxedError.database .Serialize) : Except BoxedError Unit) := by
  exact ⟨by decide, by decide⟩

/-- C2 (amended): if encoding `v` fails, `set(tree, k, v)` fails with the
boxed bincode serialization error propagated by `?` (not with the
`DatabaseError::Serialize` kind), and the tree is not mutated: it is
returned unchanged and no store write is attempted. -/
theorem set_serialize_aborts {T : Type} (c : Codec T) (tree : Tree) (k : String) (v : T)
    (f : Option SledErr) (hser : c.ser v = none) :
    set c tree k v f = (.error .bincodeErr, tree) ∧
      Except.error BoxedError.bincodeErr ≠
        (Except.error (BoxedError.database .Serialize) : Except BoxedError Unit) := by
  exact ⟨by simp [set, hser], by decide⟩

/-- Witness for C2's amended theorem at the always-failing codec. -/
theorem set_serialize_aborts_witness :
    set badCodec ([] : Tree) "k" (0 : Nat) none = (.error .bincodeErr, []) ∧
      Except.error BoxedError.bincodeErr ≠
        (Except.error (BoxedError.database .Serialize) : Except BoxedError Unit) :=
  set_serialize_aborts badCodec [] "k" 0 none rfl

/-- C3: `get_all<T>` yields (string, `T`) pairs, each byte key decoded as
UTF-8 and each output pair corresponding in order to a stored entry; the
whole call fails with `Deserialize` when some stored key is not valid
UTF-8; and on success the pairs are in ascending lexicographic key order
(comparing the keys' UTF-8 encodings, the store's byte order). -/
theorem get_all_typed_spec {T : Type} (c : Codec T) (tree : Tree)
    (hs : isSorted tree = true) :
    (∀ out, get_all c tree none = .ok out →
      List.Forall₂ (fun e p => utf8Decode e.1 = some p.1 ∧ c.de e.2 = some p.2) tree out ∧
      List.Chain' (fun p q => keyLt (utf8Encode p.1) (utf8Encode q.1) = true) out) ∧
    ((∃ e ∈ tree, utf8Decode e.1 = none) → get_all c tree none = .error .Deserialize) := by
  constructor
  · intro out hout
    have hf := get_all_loop_ok c tree out (by simpa [get_all, get_all_from_tree] using hout)
    exact ⟨hf, chain_of_forall2 hf hs⟩
  · intro ⟨e, he, hd⟩
    simp only [get_all, get_all_from_tree]
    exact get_all_loop_bad c tree ⟨e, he, Or.inl hd⟩

/-- Witness for C3: a tree whose second key (byte 255) is not valid UTF-8
makes the whole `get_all` fail with `Deserialize`. -/
theorem get_all_typed_spec_witness :
    get_all natCodec [([97], [5]), ([255], [6])] none = .error .Deserialize :=
  (get_all_typed_spec natCodec [([97], [5]), ([255], [6])] (by decide)).2
    ⟨([255], [6]), by decide, by decide⟩

/-- C4: if serializing `v` succeeds but the underlying store insert fails,
`set` fails with the `Communicate` kind (not `Set`, not a raw engine
error), leaving the tree as the engine left it. -/
theorem set_store_failure_communicate {T : Type} (c : Codec T) (tree : Tree) (k : String)
    (v : T) (bin : Bytes) (e : SledErr) (hser : c.ser v = some bin) :
    set c tree k v (some e) = (.error (.database .Communicate), tree) := by
  simp [set, hser, set_to_tree]

/-- Witness for C4 at the `Nat` codec with an injected engine failure. -/
theorem set_store_failure_communicate_witness :
    set natCodec [] "a" 5 (some ⟨0⟩) = (.error (.database .Communicate), []) :=
  set_store_failure_communicate natCodec [] "a" 5 [5] ⟨0⟩ rfl

/-- C5: on a key that is absent from the tree, `get` fails with `NotFound`
and `delete` fails with `NotFound` leaving the tree unchanged (not a
no-op success); and for every tree, key, value and engine fault, `set`
never fails with `NotFound`. -/
theorem absent_key_contract {T : Type} (c : Codec T) (tree : Tree) (k : String)
    (habs : treeLookup tree (utf8Encode k) = none) :
    get c tree k none = .error .NotFound ∧
    delete tree k none = (.error .NotFound, tree) ∧
    ∀ (t2 : Tree) (k2 : String) (v : T) (f : Option SledErr),
      (set c t2 k2 v f).1 ≠ .error (.database .NotFound) := by
  refine ⟨?_, ?_, ?_⟩
  · simp [get, get_from_tree, habs]
  · simp [delete, treeRemove_absent tree _ habs]
  · intro t2 k2 v f
    cases hs : c.ser v with
    | none => simp [set, hs]
    | some bin =>
      cases f with
      | none => simp [set, hs, set_to_tree]
      | some e => simp [set, hs, set_to_tree]

/-- Witness for C5: `get` of key "a" on the empty tree is `NotFound`. -/
theorem absent_key_contract_witness :
    get natCodec ([] : Tree) "a" none = .error .NotFound :=
  (absent_key_contract natCodec [] "a" (by decide)).1

/-- C6: on a sorted non-empty tree `get_last` returns the entry with the
lexicographically greatest key; and for string keys `k1 < k2` (in UTF-8
byte order) both written through `set`, `get_last` returns k2's record
regardless of insertion order. -/
theorem get_last_ordering {T : Type} (c : Codec T) (tree : Tree) (ge : Bytes × Bytes)
    (k1 k2 : String) (v1 v2 : T) (b1 b2 : Bytes)
    (hs : isSorted tree = true) (hlast : tree.getLast? = some ge)
    (hlt : keyLt (utf8Encode k1) (utf8Encode k2) = true)
    (hrt : ∀ (w : T) (b : Bytes), c.ser w = some b → c.de b = some w)
    (hs1 : c.ser v1 = some b1) (hs2 : c.ser v2 = some b2) :
    (get_last_from_tree tree none = .ok ge ∧
      ∀ e ∈ tree, e = ge ∨ keyLt e.1 ge.1 = true) ∧
    get_last c (set c (set c [] k1 v1 none).2 k2 v2 none).2 none = .ok (k2, v2) ∧
    get_last c (set c (set c [] k2 v2 none).2 k1 v1 none).2 none = .ok (k2, v2) := by
  have hne : utf8Encode k2 ≠ utf8Encode k1 := fun hx => keyLt_ne hlt hx.symm
  have hasym : keyLt (utf8Encode k2) (utf8Encode k1) = false := keyLt_asymm hlt
  have hde : c.de b2 = some v2 := hrt v2 b2 hs2
  refine ⟨⟨?_, ?_⟩, ?_, ?_⟩
  · simp [get_last_from_tree, hlast]
  · exact fun e he => (getLast_greatest hs hlast).2 e he
  · rw [set_ok c [] k1 v1 b1 hs1, treeInsert_nil,
      set_ok c [(utf8Encode k1, b1)] k2 v2 b2 hs2,
      treeInsert_after _ _ _ _ hasym hne]
    simp [get_last, get_last_from_tree, utf8Decode_encode, hde]
  · rw [set_ok c [] k2 v2 b2 hs2, treeInsert_nil,
      set_ok c [(utf8Encode k2, b2)] k1 v1 b1 hs1,
      treeInsert_before _ _ _ _ hlt]
    simp [get_last, get_last_from_tree, utf8Decode_encode, hde]

/-- Witness for C6: keys "a" < "b" inserted in that order; `get_last`
returns "b"'s record. -/
theorem get_last_ordering_witness :
    get_last natCodec (set natCodec (set natCodec [] "a" 5 none).2 "b" 6 none).2 none =
      .ok ("b", 6) :=
  (get_last_ordering natCodec [([97], [5])] ([97], [5]) "a" "b" 5 6 [5] [6]
    (by decide) (by decide) (by decide)
    (fun w b hb => by injection hb with h; subst h; rfl) rfl rfl).2.1

/-- C7: if some stored value's bytes are not decodable as `T`,
`get_all::<T>` fails with `Deserialize` (no partial results), however
well-formed the other entries are. -/
theorem get_all_corrupt_value {T : Type} (c : Codec T) (tree : Tree)
    (hbad : ∃ e ∈ tree, c.de e.2 = none) :
    get_all c tree none = .error .Deserialize := by
  obtain ⟨e, he, hd⟩ := hbad
  simp only [get_all, get_all_from_tree]
  exact get_all_loop_bad c tree ⟨e, he, Or.inr hd⟩

/-- Witness for C7: one corrupt value (empty byte string, not a `Nat`
encoding) among well-formed entries aborts the whole batch. -/
theorem get_all_corrupt_value_witness :
    get_all natCodec [([97], [5]), ([98], [])] none = .error .Deserialize :=
  get_all_corrupt_value natCodec [([97], [5]), ([98], [])] ⟨([98], []), by decide, by decide⟩

/-- C8: on the empty tree, `get_last` fails with `NotFound` while
`get_all` succeeds with the empty sequence. -/
theorem empty_tree_contract {T : Type} (c : Codec T) :
    get_last c ([] : Tree) none = .error .NotFound ∧
    get_all c ([] : Tree) none = .ok [] := by
  exact ⟨rfl, rfl⟩

/-- C9: after `delete(tree, k)` succeeds, a subsequent `get(tree, k)`
fails with `NotFound`. -/
theorem delete_then_get {T : Type} (c : Codec T) (tree t' : Tree) (k : String)
    (hs : isSorted tree = true)
    (hdel : delete tree k none = (.ok (), t')) :
    get c t' k none = .error .NotFound := by
  have hrm : treeLookup (treeRemove tree (utf8Encode k)).2 (utf8Encode k) = none :=
    treeLookup_remove_self _ hs
  cases hprev : (treeRemove tree (utf8Encode k)).1 with
  | none => simp [delete, hprev] at hdel
  | some pv =>
    simp only [delete, hprev, Prod.mk.injEq] at hdel
    obtain ⟨-, rfl⟩ := hdel
    simp [get, get_from_tree, hrm]

/-- Witness for C9: delete key "a" from a one-entry tree, then `get` is
`NotFound`. -/
theorem delete_then_get_witness :
    get natCodec ([] : Tree) "b" none = .error .NotFound :=
  delete_then_get natCodec [([98], [6])] [] "b" (by decide) (by decide)

/-- C10: no public operation ever returns the `NoDelete` kind; an
engine-level failure during `delete` surfaces as the wrapped engine error
(`SledError`), so `NoDelete` is unreachable. -/
theorem noDelete_unreachable {T : Type} (c : Codec T) (tree : Tree) (k : String) (v : T)
    (f : Option SledErr) (e : SledErr) :
    get c tree k f ≠ .error .NoDelete ∧
    get_all c tree f ≠ .error .NoDelete ∧
    get_last c tree f ≠ .error .NoDelete ∧
    (delete tree k f).1 ≠ .error .NoDelete ∧
    (set c tree k v f).1 ≠ .error (.database .NoDelete) ∧
    delete tree k (some e) = (.error (.SledError e), tree) := by
  refine ⟨?_, ?_, ?_, ?_, ?_, by simp [delete]⟩
  · cases f with
    | some e0 => simp [get, get_from_tree]
    | none =>
      cases hk : treeLookup tree (utf8Encode k) with
      | none => simp [get, get_from_tree, hk]
      | some bv =>
        cases hv : c.de bv with
        | none => simp [get, get_from_tree, hk, hv]
        | some w => simp [get, get_from_tree, hk, hv]
  · cases f with
    | some e0 => simp [get_all, get_all_from_tree]
    | none =>
      intro hx
      have hkind := get_all_loop_error c tree .NoDelete
        (by simpa [get_all, get_all_from_tree] using hx)
      simp at hkind
  · cases f with
    | some e0 => simp [get_last, get_last_from_tree]
    | none =>
      cases hl : tree.getLast? with
      | none => simp [get_last, get_last_from_tree, hl]
      | some kv =>
        cases hk : utf8Decode kv.1 with
        | none => simp [get_last, get_last_from_tree, hl, hk]
        | some key =>
          cases hv : c.de kv.2 with
          | none => simp [get_last, get_last_from_tree, hl, hk, hv]
          | some w => simp [get_last, get_last_from_tree, hl, hk, hv]
  · cases f with
    | some e0 => simp [delete]
    | none =>
      cases hp : (treeRemove tree (utf8Encode k)).1 with
      | none => simp [delete, hp]
      | some pv => simp [delete, hp]
  · cases hs : c.ser v with
    | none => simp [set, hs]
    | some bin =>
      cases f with
      | none => simp [set, hs, set_to_tree]
      | some e0 => simp [set, hs, set_to_tree]

end Feathermail
